import Mathlib

/-!
Verification development for the two command-line utilities of this repository:
`function_analyzer.py` (a regex-based cross-reference checker for `.gs` script
files) and `url_test.py` (a link checker).  The Python code is shallowly
embedded: file contents are `List Char`, each regular expression of the source
is embedded as a deterministic matcher (the patterns involved are such that
greedy matching with the usual leftmost, non-overlapping `finditer`/`findall`
semantics is deterministic), and the network is an explicit oracle.
-/

/-- Character class of Python's regex `\w` (ASCII range; the analyzed project
files are ASCII). -/
def isWordChar (c : Char) : Bool :=
  ('a' ≤ c && c ≤ 'z') || ('A' ≤ c && c ≤ 'Z') || ('0' ≤ c && c ≤ '9') || c = '_'

/-- Character class of Python's regex `\s`: space, tab, newline, carriage
return, vertical tab, form feed. -/
def isSpaceChar (c : Char) : Bool :=
  c = ' ' || c = '\t' || c = '\n' || c = '\r' || c = '\x0b' || c = '\x0c'

/-! ## Comment stripping (`analyze_file`, lines 87-88)

The source first removes line comments with `re.sub(r'//.*$', '', content,
flags=re.MULTILINE)` (on every line, everything from the first `//` to the end
of the line is deleted; the newline itself survives because `.` does not match
a newline and `$` matches just before it), and then removes block comments
with `re.sub(r'/\*[\s\S]*?\*/', '', content)` (from each `/*`, non-greedily to
the first following `*/`; an unterminated `/*` matches nothing and is kept).
-/

/-- State machine for one pass of the multiline `//.*$` substitution; the flag
records whether we are currently inside a (removed) line comment. -/
def slcAux : Bool → List Char → List Char
  | _, [] => []
  | true, c :: rest => if c = '\n' then '\n' :: slcAux false rest else slcAux true rest
  | false, '/' :: '/' :: rest => slcAux true rest
  | false, c :: rest => c :: slcAux false rest

def strip_line_comments (l : List Char) : List Char := slcAux false l

/-- Skip through the first `*/`, returning what follows it; `none` if there is
no `*/`. -/
def findClose : List Char → Option (List Char)
  | [] => none
  | '*' :: '/' :: rest => some rest
  | _ :: rest => findClose rest

/-- The `/\*[\s\S]*?\*/` substitution.  Fuel is the length of the input: each
step either emits one character or removes a comment of length at least four,
so the fuel never runs out when initialized with the input length. -/
def sbcAux : Nat → List Char → List Char
  | 0, l => l
  | _ + 1, [] => []
  | fuel + 1, '/' :: '*' :: rest =>
    (match findClose rest with
     | some rest2 => sbcAux fuel rest2
     | none => '/' :: '*' :: rest)
  | fuel + 1, c :: rest => c :: sbcAux fuel rest

def strip_block_comments (l : List Char) : List Char := sbcAux l.length l

/-- Comment stripping as performed by `analyze_file`: line comments first,
then block comments. -/
def strip_comments (l : List Char) : List Char :=
  strip_block_comments (strip_line_comments l)

/-! ## The symbol extractors (`extract_function_definitions`,
`extract_function_calls`, `extract_class_references`)

Each Python regex is embedded as a matcher `List Char → Option (capture ×
rest)` that decides whether a match starts at the head of the list and, if so,
returns the captured name and the suffix after the whole match.  For all the
patterns of the source, greedy sub-matches cannot backtrack usefully (`\w`,
`\s` and the relevant literals are pairwise disjoint), so the matchers are
maximal-munch; the one real alternation/backtracking situation (the
`(?:static\s+)?` option of pattern 2 and the argument alternation of pattern
3) is played out explicitly.  Scanning tries every position from the left and
resumes after the end of a match, exactly like `re.finditer`. -/

/-- Matcher for a call site `(\w+)\s*\(` (`extract_function_calls`, line 39). -/
def matchCall (l : List Char) : Option (List Char × List Char) :=
  let w := l.takeWhile isWordChar
  if w.isEmpty then none else
    match (l.dropWhile isWordChar).dropWhile isSpaceChar with
    | '(' :: rest => some (w, rest)
    | _ => none

/-- A call-site match: name, absolute offset of the match start, and the line
number recorded by the source (`content[:match.start()].count('\n') + 1`). -/
structure RawCall where
  name : String
  start : Nat
  line : Nat
deriving DecidableEq, Repr

/-- Non-overlapping left-to-right scan for `(\w+)\s*\(`, tracking the absolute
position to reproduce `match.start()`.  Fuel is the input length; every step
advances by at least one character. -/
def scanCallsAux (content : List Char) : Nat → Nat → List Char → List RawCall
  | 0, _, _ => []
  | _ + 1, _, [] => []
  | fuel + 1, pos, c :: rest =>
    match matchCall (c :: rest) with
    | some (w, after) =>
      { name := ⟨w⟩, start := pos, line := (content.take pos).count '\n' + 1 } ::
        scanCallsAux content fuel (pos + ((c :: rest).length - after.length)) after
    | none => scanCallsAux content fuel (pos + 1) rest

/-- The keyword/builtin denylist of `extract_function_calls` (lines 43-46). -/
def call_keyword_denylist : List String :=
  ["if", "for", "while", "switch", "catch", "function",
   "return", "throw", "new", "typeof", "instanceof",
   "console", "Array", "Object", "String", "Number",
   "Date", "Math", "JSON", "parseInt", "parseFloat"]

/-- `extract_function_calls`: every match of `(\w+)\s*\(` whose captured name
is not denylisted, in scan order.  (The denylist test happens after the match
is consumed, as in the source.) -/
def extract_function_calls (content : List Char) : List RawCall :=
  (scanCallsAux content content.length 0 content).filter
    (fun c => !(call_keyword_denylist.contains c.name))

/-- Matcher for pattern 1 of `extract_function_definitions`:
`function\s+(\w+)\s*\(`. -/
def matchP1 (l : List Char) : Option (List Char × List Char) :=
  if ("function".data).isPrefixOf l then
    match l.drop 8 with
    | c :: rest =>
      if isSpaceChar c then
        let l2 := rest.dropWhile isSpaceChar
        let w := l2.takeWhile isWordChar
        if w.isEmpty then none else
          match (l2.dropWhile isWordChar).dropWhile isSpaceChar with
          | '(' :: after => some (w, after)
          | _ => none
      else none
    | [] => none
  else none

/-- Core of pattern 2: `(\w+)\s*\([^)]*\)\s*{`.  The argument part `[^)]*`
cannot cross a `)`, so it deterministically stops at the first one. -/
def matchCore (l : List Char) : Option (List Char × List Char) :=
  let w := l.takeWhile isWordChar
  if w.isEmpty then none else
    match (l.dropWhile isWordChar).dropWhile isSpaceChar with
    | '(' :: l3 =>
      match l3.dropWhile (fun c => !(c = ')')) with
      | ')' :: l4 =>
        match l4.dropWhile isSpaceChar with
        | '{' :: l5 => some (w, l5)
        | _ => none
      | _ => none
    | _ => none

/-- The `(?:static\s+)?` option of pattern 2, taken greedily: the literal
`static`, at least one space, then the core with the spaces consumed. -/
def matchStaticPre (l : List Char) : Option (List Char × List Char) :=
  if ("static".data).isPrefixOf l then
    match l.drop 6 with
    | c :: rest => if isSpaceChar c then matchCore (rest.dropWhile isSpaceChar) else none
    | [] => none
  else none

/-- Matcher for pattern 2 `(?:static\s+)?(\w+)\s*\([^)]*\)\s*{`: the optional
`static` prefix is tried first, and on failure the regex engine backtracks to
matching the core at the same position. -/
def matchP2 (l : List Char) : Option (List Char × List Char) :=
  match matchStaticPre l with
  | some r => some r
  | none => matchCore l

/-- The `(?:const|let|var)` alternation of pattern 3 (the three literals are
distinguished by their first character, so no cross-alternative backtracking
can occur). -/
def matchArrowKw (l : List Char) : Option (List Char) :=
  if ("const".data).isPrefixOf l then some (l.drop 5)
  else if ("let".data).isPrefixOf l then some (l.drop 3)
  else if ("var".data).isPrefixOf l then some (l.drop 3)
  else none

/-- The `\s*(?:\([^)]*\)|[^=]+)\s*=>` tail of pattern 3, with `l` positioned
just after the `=`.  The parenthesized branch is only viable with the greedy
`\s*`; the `[^=]+` branch can absorb the spaces itself and, over all
backtracking splits, succeeds exactly when at least one non-`=` character
precedes the first `=` and that `=` is followed by `>`. -/
def matchArrowTail (l : List Char) : Option (List Char) :=
  let b1 : Option (List Char) :=
    match l.dropWhile isSpaceChar with
    | '(' :: l2 =>
      match l2.dropWhile (fun c => !(c = ')')) with
      | ')' :: l3 =>
        match l3.dropWhile isSpaceChar with
        | '=' :: '>' :: rest => some rest
        | _ => none
      | _ => none
    | _ => none
  match b1 with
  | some r => some r
  | none =>
    let seg := l.takeWhile (fun c => !(c = '='))
    if seg.isEmpty then none
    else
      match l.dropWhile (fun c => !(c = '=')) with
      | '=' :: '>' :: rest => some rest
      | _ => none

/-- Matcher for pattern 3:
`(?:const|let|var)\s+(\w+)\s*=\s*(?:\([^)]*\)|[^=]+)\s*=>`. -/
def matchP3 (l : List Char) : Option (List Char × List Char) :=
  match matchArrowKw l with
  | none => none
  | some l1 =>
    match l1 with
    | c :: rest =>
      if isSpaceChar c then
        let l2 := rest.dropWhile isSpaceChar
        let w := l2.takeWhile isWordChar
        if w.isEmpty then none else
          match (l2.dropWhile isWordChar).dropWhile isSpaceChar with
          | '=' :: l3 =>
            match matchArrowTail l3 with
            | some rest2 => some (w, rest2)
            | none => none
          | _ => none
      else none
    | [] => none

/-- Matcher for pattern 4: `(\w+)\s*:\s*function\s*\(`. -/
def matchP4 (l : List Char) : Option (List Char × List Char) :=
  let w := l.takeWhile isWordChar
  if w.isEmpty then none else
    match (l.dropWhile isWordChar).dropWhile isSpaceChar with
    | ':' :: l2 =>
      if ("function".data).isPrefixOf (l2.dropWhile isSpaceChar) then
        match ((l2.dropWhile isSpaceChar).drop 8).dropWhile isSpaceChar with
        | '(' :: after => some (w, after)
        | _ => none
      else none
    | _ => none

/-- Non-overlapping left-to-right `findall` scan returning the captured names
for any of the definition matchers.  Fuel is the input length. -/
def scanNames (m : List Char → Option (List Char × List Char)) :
    Nat → List Char → List String
  | 0, _ => []
  | _ + 1, [] => []
  | fuel + 1, c :: rest =>
    match m (c :: rest) with
    | some (w, after) => String.mk w :: scanNames m fuel after
    | none => scanNames m fuel rest

/-- `extract_function_definitions`: the four pattern families are scanned
independently and their results are unioned into a Python `set`.  We keep the
concatenated name list; only membership and the number of distinct names ever
matter downstream. -/
def extract_function_definitions (content : List Char) : List String :=
  scanNames matchP1 content.length content ++ scanNames matchP2 content.length content
    ++ scanNames matchP3 content.length content ++ scanNames matchP4 content.length content

/-- A class reference of `extract_class_references`. -/
structure RawClassRef where
  ctype : String
  name : String
  member : String
  line : Nat
deriving DecidableEq, Repr

/-- Matcher for `new\s+(\w+)\s*\(` (no word boundary before `new`, exactly as
in the source). -/
def matchNew (l : List Char) : Option (List Char × List Char) :=
  if ("new".data).isPrefixOf l then
    match l.drop 3 with
    | c :: rest =>
      if isSpaceChar c then
        let l2 := rest.dropWhile isSpaceChar
        let w := l2.takeWhile isWordChar
        if w.isEmpty then none else
          match (l2.dropWhile isWordChar).dropWhile isSpaceChar with
          | '(' :: after => some (w, after)
          | _ => none
      else none
    | [] => none
  else none

/-- Matcher for `(\w+)\.(\w+)`: returns both captures and the rest after the
second group. -/
def matchDotted (l : List Char) : Option ((List Char × List Char) × List Char) :=
  let w := l.takeWhile isWordChar
  if w.isEmpty then none else
    match l.dropWhile isWordChar with
    | '.' :: l2 =>
      let m := l2.takeWhile isWordChar
      if m.isEmpty then none else some ((w, m), l2.dropWhile isWordChar)
    | _ => none

def scanNewAux (content : List Char) : Nat → Nat → List Char → List RawClassRef
  | 0, _, _ => []
  | _ + 1, _, [] => []
  | fuel + 1, pos, c :: rest =>
    match matchNew (c :: rest) with
    | some (w, after) =>
      { ctype := "instantiation", name := ⟨w⟩, member := "",
        line := (content.take pos).count '\n' + 1 } ::
        scanNewAux content fuel (pos + ((c :: rest).length - after.length)) after
    | none => scanNewAux content fuel (pos + 1) rest

def scanDottedAux (content : List Char) : Nat → Nat → List Char → List RawClassRef
  | 0, _, _ => []
  | _ + 1, _, [] => []
  | fuel + 1, pos, c :: rest =>
    match matchDotted (c :: rest) with
    | some ((w, m), after) =>
      { ctype := "static_reference", name := ⟨w⟩, member := ⟨m⟩,
        line := (content.take pos).count '\n' + 1 } ::
        scanDottedAux content fuel (pos + ((c :: rest).length - after.length)) after
    | none => scanDottedAux content fuel (pos + 1) rest

/-- `extract_class_references`: all `new`-instantiations, then all dotted
references whose class name starts with an uppercase letter (the
`class_name[0].isupper()` heuristic filters after matching). -/
def extract_class_references (content : List Char) : List RawClassRef :=
  scanNewAux content content.length 0 content
    ++ (scanDottedAux content content.length 0 content).filter
      (fun r => match r.name.data with
        | c :: _ => c.isUpper
        | [] => false)

/-! ## The cross-reference aggregator (`main` of `function_analyzer.py`)

The analyzer is modelled as a pure function of its input: the list of
`(path, content)` pairs of the globbed `.gs` files, in glob order.  The
Python dicts `all_calls` / `all_class_refs` are insertion-ordered maps, here
association lists built in exactly the same order. -/

/-- Python's `str.startswith`. -/
def startswith (s pre : String) : Bool := pre.data.isPrefixOf s.data

/-- Location of one call occurrence as stored in `all_calls`. -/
structure Loc where
  file : String
  line : Nat
deriving DecidableEq, Repr

/-- Location of one class reference as stored in `all_class_refs`. -/
structure ClassLoc where
  file : String
  line : Nat
  ctype : String
  member : String
deriving DecidableEq, Repr

/-- One step of `all_calls[name].append(loc)` preceded by the
`if name not in all_calls` initialization: insertion-ordered map update. -/
def addOcc {β : Type} : List (String × List β) → String → β → List (String × List β)
  | [], k, v => [(k, [v])]
  | (k', vs) :: rest, k, v =>
    if k' = k then (k', vs ++ [v]) :: rest else (k', vs) :: addOcc rest k v

/-- Builds the insertion-ordered occurrence map from the flat occurrence
list, exactly as the aggregation loop of `main` does. -/
def buildAssoc {β : Type} (ps : List (String × β)) : List (String × List β) :=
  ps.foldl (fun m p => addOcc m p.1 p.2) []

/-- The project-wide definitions collection `all_definitions` (a Python set;
we keep the concatenated per-file lists, deduplicating only where the source
takes the set's cardinality). -/
def allDefinitions (files : List (String × String)) : List String :=
  (files.map (fun f => extract_function_definitions (strip_comments f.2.data))).flatten

/-- The flat list of call occurrences `(name, (file, line))` in file order. -/
def allCallPairs (files : List (String × String)) : List (String × Loc) :=
  (files.map (fun f => (extract_function_calls (strip_comments f.2.data)).map
    (fun c => (c.name, ({ file := f.1, line := c.line } : Loc))))).flatten

/-- The insertion-ordered map `all_calls : name → occurrence list`. -/
def all_calls (files : List (String × String)) : List (String × List Loc) :=
  buildAssoc (allCallPairs files)

/-- The flat list of class-reference occurrences in file order. -/
def allClassRefPairs (files : List (String × String)) : List (String × ClassLoc) :=
  (files.map (fun f => (extract_class_references (strip_comments f.2.data)).map
    (fun r => (r.name, ({ file := f.1, line := r.line, ctype := r.ctype,
                          member := r.member } : ClassLoc))))).flatten

/-- The insertion-ordered map `all_class_refs : name → occurrence list`. -/
def all_class_refs (files : List (String × String)) : List (String × List ClassLoc) :=
  buildAssoc (allClassRefPairs files)

/-- The fixed Google Apps Script builtin allowlist (`gas_builtins`). -/
def gas_builtins : List String :=
  ["SpreadsheetApp", "GmailApp", "DriveApp", "PropertiesService",
   "CacheService", "UrlFetchApp", "Utilities", "ScriptApp",
   "CalendarApp", "DocumentApp", "FormApp", "GroupsApp",
   "HtmlService", "LanguageApp", "LockService", "MailApp",
   "Session", "SitesApp", "SlidesApp", "Logger", "console"]

/-- The `is_method` loop of `main` (lines 153-157): scanning the definitions
for one whose name the called name starts with, with early exit — i.e. an
existential over the set. -/
def is_method (defs : List String) (n : String) : Bool :=
  defs.any (fun d => startswith n d)

/-- The condition under which `main` records a called name as undefined
(lines 150-160). -/
def undefined_function_test (defs : List String) (n : String) : Bool :=
  !(defs.contains n) && !(gas_builtins.contains n) && !(is_method defs n)

/-- The `undefined_functions` map of `main`: the entries of `all_calls` whose
name passes the undefined test, in `all_calls` order. -/
def undefined_functions (files : List (String × String)) : List (String × List Loc) :=
  (all_calls files).filter (fun p => undefined_function_test (allDefinitions files) p.1)

/-- The condition under which `main` records a referenced class as undefined
(lines 164-166): no prefix heuristic here. -/
def undefined_class_test (defs : List String) (n : String) : Bool :=
  !(defs.contains n) && !(gas_builtins.contains n)

/-- The `undefined_classes` map of `main`. -/
def undefined_classes (files : List (String × String)) : List (String × List ClassLoc) :=
  (all_class_refs files).filter (fun p => undefined_class_test (allDefinitions files) p.1)

/-- The value `main` returns, which `exit(main())` turns into the process
exit status: `len(undefined_functions) + len(undefined_classes)`. -/
def analyzer_exit_code (files : List (String × String)) : Nat :=
  (undefined_functions files).length + (undefined_classes files).length

/-- The `summary` object of the JSON report. -/
structure ReportSummary where
  files_analyzed : Nat
  total_definitions : Nat
  total_calls : Nat
  undefined_functions : Nat
  undefined_classes : Nat
deriving DecidableEq, Repr

/-- The JSON report of `main` (lines 197-208).  `all_definitions` holds
`list(all_definitions)`: the enumeration of a Python `set` of strings, whose
order is not specified (string hashing is salted per process), so the report
builder takes that enumeration as an argument constrained to enumerate the
set. -/
structure Report where
  summary : ReportSummary
  undefined_functions : List (String × List Loc)
  undefined_classes : List (String × List ClassLoc)
  all_definitions : List String
deriving DecidableEq, Repr

/-- The distinct project-wide definitions, i.e. the Python set
`all_definitions` as a collection of distinct names. -/
def definitionsSet (files : List (String × String)) : List String :=
  (allDefinitions files).dedup

/-- A list enumerates the definitions set iff it is a permutation of the
distinct definitions: this is exactly the freedom `list(all_definitions)`
has. -/
def enumeratesDefinitions (files : List (String × String)) (e : List String) : Prop :=
  e.Perm (definitionsSet files)

/-- The report `main` writes to `function_analysis_report.json`, as a
function of the input files and of the `set` enumeration order used for the
`all_definitions` array. -/
def buildReport (files : List (String × String)) (defsEnum : List String) : Report :=
  { summary :=
      { files_analyzed := files.length
        total_definitions := (definitionsSet files).length
        total_calls := (all_calls files).length
        undefined_functions := (undefined_functions files).length
        undefined_classes := (undefined_classes files).length }
    undefined_functions := undefined_functions files
    undefined_classes := undefined_classes files
    all_definitions := defsEnum }

/-! ## The link checker (`url_test.py`)

`test_url` is embedded with the network as an oracle mapping the probed URL
to an outcome; everything in the Python function's `try` block that can raise
is represented by an outcome constructor, so the embedding is total — the
`except` clauses of the source are the `fail` branches. -/

/-- Outcome of the single `requests.head` probe: the response status code, or
one of the exception classes the source distinguishes. -/
inductive NetOutcome : Type
  | timeout : NetOutcome
  | connError : NetOutcome
  | otherExc : String → NetOutcome
  | response : Nat → NetOutcome
deriving DecidableEq, Repr

/-- Python substring containment (`pat in s`). -/
def containsSub (pat : List Char) : List Char → Bool
  | [] => pat.isEmpty
  | c :: rest => pat.isPrefixOf (c :: rest) || containsSub pat rest

/-- Python `str.replace`: replace every non-overlapping occurrence, scanning
left to right.  Fuel is the input length (each step consumes at least one
character since the patterns used are nonempty). -/
def replaceSubAux (pat rep : List Char) : Nat → List Char → List Char
  | 0, l => l
  | _ + 1, [] => []
  | fuel + 1, c :: rest =>
    if pat.isPrefixOf (c :: rest) then
      rep ++ replaceSubAux pat rep fuel ((c :: rest).drop pat.length)
    else c :: replaceSubAux pat rep fuel rest

def replaceSub (s pat rep : String) : String :=
  ⟨replaceSubAux pat.data rep.data s.data.length s.data⟩

/-- Modelled after `urllib.parse.urlparse(url).hostname` for the URL shapes
the script probes: the netloc is the text between `://` and the next `/`,
`?` or `#`; the hostname drops a `user@` part (after the last `@`), drops a
`:port` suffix (after the first `:` of the remaining host), and is
lowercased; an absent or empty netloc gives `none`. -/
def afterScheme : List Char → Option (List Char)
  | [] => none
  | ':' :: '/' :: '/' :: rest => some rest
  | _ :: rest => afterScheme rest

def lastAfterAt (l : List Char) : List Char :=
  (l.reverse.takeWhile (fun c => !(c = '@'))).reverse

def hostname (url : String) : Option String :=
  match afterScheme url.data with
  | none => none
  | some rest =>
    let netloc := rest.takeWhile (fun c => !(c = '/' || c = '?' || c = '#'))
    let h := (lastAfterAt netloc).takeWhile (fun c => !(c = ':'))
    if h.isEmpty then none else some ⟨h.map Char.toLower⟩

/-- The hostnames `test_url` skips (line 49). -/
def skip_hostnames : List String := ["localhost", "example.com", "127.0.0.1"]

/-- Whether the skip branch of `test_url` fires for this URL. -/
def isSkipUrl (url : String) : Bool :=
  match hostname url with
  | some h => skip_hostnames.contains h
  | none => false

/-- The GitHub rewrite of `test_url` (lines 53-55). -/
def rewriteGithub (url : String) : String :=
  if containsSub "github.com".data url.data && containsSub "/repos/".data url.data
      && !(containsSub "/api.github.com".data url.data) then
    replaceSub url "github.com" "api.github.com/repos"
  else url

/-- `test_url`: the status/message pair returned for a URL under a given
network oracle.  Every exception raised inside the `try` block is caught, so
the function is total. -/
def test_url (net : String → NetOutcome) (url : String) : String × String :=
  if isSkipUrl url then ("skip", "Local/example URL")
  else
    match net (rewriteGithub url) with
    | NetOutcome.timeout => ("fail", "Timeout")
    | NetOutcome.connError => ("fail", "Connection error")
    | NetOutcome.otherExc m => ("fail", m)
    | NetOutcome.response code =>
      if code < 400 then ("success", "Status: " ++ toString code)
      else ("fail", "Status: " ++ toString code)

/-- The deduplication loop of `main` in `url_test.py` (lines 100-104): an
insertion-ordered map from the cleaned URL string to the list of files of its
occurrences (one entry appended per occurrence). -/
def unique_urls (all_urls : List (String × String)) : List (String × List String) :=
  buildAssoc all_urls

/-- One entry of the `url_test_results.json` lists. -/
structure UrlResult where
  url : String
  files : List String
  status : String
  message : String
deriving DecidableEq, Repr

/-- The result record built for one unique URL (lines 117-124). -/
def classifyUrl (net : String → NetOutcome) (p : String × List String) : UrlResult :=
  { url := p.1, files := p.2, status := (test_url net p.1).1,
    message := (test_url net p.1).2 }

/-- The three result lists, in `unique_urls` order: each unique URL's record
is appended to the list named by its status. -/
def urlResults (net : String → NetOutcome) (all_urls : List (String × String)) :
    List UrlResult × List UrlResult × List UrlResult :=
  (((unique_urls all_urls).map (classifyUrl net)).filter (fun r => r.status = "success"),
   ((unique_urls all_urls).map (classifyUrl net)).filter (fun r => r.status = "fail"),
   ((unique_urls all_urls).map (classifyUrl net)).filter (fun r => r.status = "skip"))

/-- The link checker's exit status: `sys.exit(len(results['fail']))`. -/
def url_exit_code (net : String → NetOutcome) (all_urls : List (String × String)) : Nat :=
  (urlResults net all_urls).2.1.length

/-! ## Specification-side definitions

These are not part of the embedded program: they express, independently of
the code above, notions the claims quantify over (the 1-based line number of
an offset, association-list lookup, and the control-flow keywords). -/

/-- The 1-based line number of the character position `i` in the text `l`:
position 0 is on line 1, and each newline among the first `i` characters
advances the line by one. -/
def lineOfPos : List Char → Nat → Nat
  | _, 0 => 1
  | [], _ + 1 => 1
  | c :: s, n + 1 => (if c = '\n' then 1 else 0) + lineOfPos s n

/-- First-match association lookup by key. -/
def assocFind {β : Type} (k : String) : List (String × β) → Option β
  | [] => none
  | p :: rest => if p.1 = k then some p.2 else assocFind k rest

/-- The control-flow keywords of the claim about `kw (...) {` headers. -/
def control_keywords : List String := ["if", "for", "while", "switch", "catch"]

/-! ## Basic facts about the character classes -/

theorem isSpaceChar_cases {c : Char} (h : isSpaceChar c = true) :
    c = ' ' ∨ c = '\t' ∨ c = '\n' ∨ c = '\r' ∨ c = '\x0b' ∨ c = '\x0c' := by
  have h2 := h
  simp only [isSpaceChar, Bool.or_eq_true, decide_eq_true_eq] at h2
  tauto

theorem word_not_space {c : Char} (h : isWordChar c = true) : isSpaceChar c = false := by
  by_contra hne
  have hs : isSpaceChar c = true := by revert hne; cases isSpaceChar c <;> simp
  rcases isSpaceChar_cases hs with h1 | h1 | h1 | h1 | h1 | h1 <;>
    rw [h1] at h <;> simp [isWordChar] at h

theorem word_not_lparen {c : Char} (h : isWordChar c = true) : c ≠ '(' := by
  intro he; subst he; simp [isWordChar] at h

theorem space_not_lparen {c : Char} (h : isSpaceChar c = true) : c ≠ '(' := by
  intro he; subst he; simp [isSpaceChar] at h

/-! ## Association-map lemmas (shared by the analyzer and the link checker) -/

theorem mem_keys_addOcc {β : Type} (m : List (String × List β)) (k u : String) (v : β) :
    u ∈ (addOcc m k v).map Prod.fst ↔ u ∈ m.map Prod.fst ∨ u = k := by
  induction m with
  | nil => simp [addOcc]
  | cons p rest ih =>
    by_cases h : p.1 = k
    · subst h; simp [addOcc]; tauto
    · simp only [addOcc, if_neg h, List.map_cons, List.mem_cons, ih]; tauto

theorem nodup_keys_addOcc {β : Type} (m : List (String × List β)) (k : String) (v : β)
    (h : (m.map Prod.fst).Nodup) : ((addOcc m k v).map Prod.fst).Nodup := by
  induction m with
  | nil => simp [addOcc]
  | cons p rest ih =>
    simp only [List.map_cons, List.nodup_cons] at h
    by_cases hk : p.1 = k
    · subst hk; simpa [addOcc] using h
    · simp only [addOcc, if_neg hk, List.map_cons, List.nodup_cons]
      exact ⟨by rw [mem_keys_addOcc]; rintro (hm | hm) <;> [exact h.1 hm; exact hk hm],
        ih h.2⟩

theorem mem_keys_foldl {β : Type} (ps : List (String × β)) (m : List (String × List β))
    (u : String) :
    u ∈ ((ps.foldl (fun m p => addOcc m p.1 p.2) m).map Prod.fst) ↔
      u ∈ m.map Prod.fst ∨ u ∈ ps.map Prod.fst := by
  induction ps generalizing m with
  | nil => simp
  | cons p rest ih =>
    simp only [List.foldl_cons, ih, mem_keys_addOcc, List.map_cons, List.mem_cons]
    tauto

theorem nodup_keys_foldl {β : Type} (ps : List (String × β)) (m : List (String × List β))
    (h : (m.map Prod.fst).Nodup) :
    (((ps.foldl (fun m p => addOcc m p.1 p.2) m)).map Prod.fst).Nodup := by
  induction ps generalizing m with
  | nil => exact h
  | cons p rest ih => exact ih _ (nodup_keys_addOcc _ _ _ h)

theorem mem_keys_buildAssoc {β : Type} (ps : List (String × β)) (u : String) :
    u ∈ (buildAssoc ps).map Prod.fst ↔ u ∈ ps.map Prod.fst := by
  unfold buildAssoc; rw [mem_keys_foldl]; simp

theorem nodup_keys_buildAssoc {β : Type} (ps : List (String × β)) :
    ((buildAssoc ps).map Prod.fst).Nodup := by
  unfold buildAssoc; exact nodup_keys_foldl _ _ (by simp)

theorem assocFind_addOcc {β : Type} (m : List (String × List β)) (k u : String) (v : β) :
    assocFind u (addOcc m k v) =
      if u = k then
        (match assocFind u m with
         | some vs => some (vs ++ [v])
         | none => some [v])
      else assocFind u m := by
  induction m with
  | nil =>
    by_cases h : u = k
    · subst h; simp [addOcc, assocFind]
    · simp [addOcc, assocFind, h, Ne.symm h]
  | cons p rest ih =>
    by_cases hk : p.1 = k
    · by_cases hu : p.1 = u
      · have h1 : u = k := by rw [← hu]; exact hk
        simp [addOcc, hk, assocFind, hu, h1]
      · have h1 : ¬ u = k := fun he => hu (by rw [hk, ← he])
        have h2 : ¬ k = u := fun he => hu (hk.trans he)
        simp [addOcc, hk, assocFind, hu, h1, h2]
    · by_cases hu : p.1 = u
      · have h1 : ¬ u = k := fun he => hk (hu.trans he)
        simp [addOcc, hk, assocFind, hu, h1]
      · simp [addOcc, hk, assocFind, hu, ih]

theorem assocFind_foldl {β : Type} (ps : List (String × β)) (m : List (String × List β))
    (u : String) :
    assocFind u (ps.foldl (fun m p => addOcc m p.1 p.2) m) =
      match assocFind u m with
      | some vs => some (vs ++ (ps.filter (fun p => p.1 == u)).map Prod.snd)
      | none =>
        if u ∈ ps.map Prod.fst then some ((ps.filter (fun p => p.1 == u)).map Prod.snd)
        else none := by
  induction ps generalizing m with
  | nil => cases h : assocFind u m <;> simp [h]
  | cons p rest ih =>
    simp only [List.foldl_cons]
    rw [ih, assocFind_addOcc]
    by_cases hu : u = p.1
    · rw [if_pos hu]
      have hbe : (p.1 == u) = true := by simp [beq_iff_eq, hu.symm]
      cases h : assocFind u m with
      | some vs => simp [h, List.filter_cons, hbe, List.append_assoc]
      | none => simp [h, List.filter_cons, hbe, List.mem_cons, hu]
    · rw [if_neg hu]
      have hbe : (p.1 == u) = false := by
        simp only [beq_eq_false_iff_ne, ne_eq]
        exact fun he => hu he.symm
      cases h : assocFind u m with
      | some vs => simp [h, List.filter_cons, hbe]
      | none =>
        simp [h, List.filter_cons, hbe]
        by_cases hmem : u ∈ List.map Prod.fst rest
        · simp [hmem, List.mem_cons]
        · simp [hmem, List.mem_cons, hu]

theorem assocFind_buildAssoc {β : Type} (ps : List (String × β)) (u : String) :
    assocFind u (buildAssoc ps) =
      if u ∈ ps.map Prod.fst then some ((ps.filter (fun p => p.1 == u)).map Prod.snd)
      else none := by
  unfold buildAssoc; rw [assocFind_foldl]; simp [assocFind]

/-! ## The link checker: taxonomy of `test_url` and deduplication -/

theorem test_url_status_mem (net : String → NetOutcome) (url : String) :
    (test_url net url).1 = "skip" ∨ (test_url net url).1 = "fail" ∨
      (test_url net url).1 = "success" := by
  unfold test_url
  cases hskip : isSkipUrl url
  · simp only [Bool.false_eq_true, if_false]
    cases net (rewriteGithub url) with
    | timeout => simp
    | connError => simp
    | otherExc m => simp
    | response c => by_cases hc : c < 400 <;> simp [hc]
  · simp

/-- C7: For every input URL string and network behaviour, the per-URL probe
returns normally with a status that is exactly one of skip, fail, success:
skip exactly for the local/placeholder hostnames, fail exactly for timeout,
connection error, any other exception, or a status of 400 or more, and
success exactly for a response below 400.  (The embedding is a total
function: the catch-all `except` of the source means no exception escapes.) -/
theorem test_url_total_taxonomy (net : String → NetOutcome) (url : String) :
    ((test_url net url).1 = "skip" ∨ (test_url net url).1 = "fail" ∨
      (test_url net url).1 = "success")
    ∧ ((test_url net url).1 = "skip" ↔ isSkipUrl url = true)
    ∧ ((test_url net url).1 = "success" ↔
        (isSkipUrl url = false ∧
          ∃ c, net (rewriteGithub url) = NetOutcome.response c ∧ c < 400))
    ∧ ((test_url net url).1 = "fail" ↔
        (isSkipUrl url = false ∧
          (net (rewriteGithub url) = NetOutcome.timeout ∨
           net (rewriteGithub url) = NetOutcome.connError ∨
           (∃ m, net (rewriteGithub url) = NetOutcome.otherExc m) ∨
           (∃ c, net (rewriteGithub url) = NetOutcome.response c ∧ 400 ≤ c)))) := by
  refine ⟨test_url_status_mem net url, ?_, ?_, ?_⟩ <;>
  · unfold test_url
    cases hskip : isSkipUrl url
    · simp only [Bool.false_eq_true, if_false]
      cases hnet : net (rewriteGithub url) with
      | timeout => simp [hnet]
      | connError => simp [hnet]
      | otherExc m => simp [hnet]
      | response c =>
        by_cases hc : c < 400 <;> simp [hnet, hc] <;> omega
    · simp

/-- C8: For every URL whose probe yields an HTTP response, the classification
is success below 400 and fail at 400 or more, with the literal status code
embedded in the result message. -/
theorem http_status_classification (net : String → NetOutcome) (url : String) (code : Nat)
    (hskip : isSkipUrl url = false)
    (hnet : net (rewriteGithub url) = NetOutcome.response code) :
    test_url net url =
      ((if code < 400 then "success" else "fail"), "Status: " ++ toString code) := by
  unfold test_url
  rw [hskip, hnet]
  by_cases hc : code < 400 <;> simp [hc]

theorem http_status_classification_witness :
    isSkipUrl "https://x.test/a" = false ∧
      test_url (fun _ => NetOutcome.response 404) "https://x.test/a"
        = ("fail", "Status: 404") := by
  refine ⟨by decide, ?_⟩
  rw [http_status_classification (fun _ => NetOutcome.response 404) "https://x.test/a" 404
    (by decide) rfl]
  decide

/-- C9 counterexample: a URL occurring twice in the same file is recorded
with that file listed twice in its `files` array, so the array is not
duplicate-free. -/
theorem url_dedup_duplicate_file_cex :
    unique_urls [("http://a.test/x", "f.md"), ("http://a.test/x", "f.md")]
      = [("http://a.test/x", ["f.md", "f.md"])]
    ∧ ¬ (["f.md", "f.md"] : List String).Nodup := by
  exact ⟨rfl, by decide⟩

theorem countP_filter_three {α : Type} (L : List α) (q s1 s2 s3 : α → Bool)
    (h : ∀ r ∈ L,
      (s1 r = true ∧ s2 r = false ∧ s3 r = false) ∨
      (s1 r = false ∧ s2 r = true ∧ s3 r = false) ∨
      (s1 r = false ∧ s2 r = false ∧ s3 r = true)) :
    (L.filter s1).countP q + (L.filter s2).countP q + (L.filter s3).countP q
      = L.countP q := by
  induction L with
  | nil => simp
  | cons a l ih =>
    have hl := ih (fun r hr => h r (List.mem_cons_of_mem _ hr))
    have ha := h a (List.mem_cons_self _ _)
    rcases ha with ⟨h1, h2, h3⟩ | ⟨h1, h2, h3⟩ | ⟨h1, h2, h3⟩ <;>
      simp only [List.filter_cons, h1, h2, h3, if_true, if_false, List.countP_cons] <;>
      by_cases hq : q a = true <;> simp [hq] <;> omega

/-- Statuses produced by `classifyUrl` are one of the three lists' statuses. -/
theorem classifyUrl_status_mem (net : String → NetOutcome) (p : String × List String) :
    (classifyUrl net p).status = "skip" ∨ (classifyUrl net p).status = "fail" ∨
      (classifyUrl net p).status = "success" := test_url_status_mem net p.1

/-- C9 (amended): each distinct cleaned URL appears exactly once as a key of
the deduplication map and exactly once across the three result lists, and its
`files` array is the list of the files of all its occurrences in order — one
entry per occurrence, so the same file may appear several times. -/
theorem url_dedup_files_occurrences (all_urls : List (String × String))
    (net : String → NetOutcome) (u : String) :
    ((unique_urls all_urls).map Prod.fst).Nodup
    ∧ assocFind u (unique_urls all_urls)
        = (if u ∈ all_urls.map Prod.fst
           then some ((all_urls.filter (fun p => p.1 == u)).map Prod.snd) else none)
    ∧ (((urlResults net all_urls).1 ++ ((urlResults net all_urls).2.1
          ++ (urlResults net all_urls).2.2)).countP (fun r => r.url == u))
        = (if u ∈ all_urls.map Prod.fst then 1 else 0) := by
  refine ⟨nodup_keys_buildAssoc _, assocFind_buildAssoc _ _, ?_⟩
  rw [List.countP_append, List.countP_append, ← Nat.add_assoc]
  unfold urlResults
  rw [countP_filter_three]
  · rw [List.countP_map]
    have hcomp : ((fun r : UrlResult => r.url == u) ∘ classifyUrl net)
        = (fun p : String × List String => p.1 == u) := rfl
    rw [hcomp]
    have hkeys : (unique_urls all_urls).countP (fun p => p.1 == u)
        = ((unique_urls all_urls).map Prod.fst).countP (fun k => k == u) := by
      rw [List.countP_map]; rfl
    rw [hkeys]
    have hcount : ((unique_urls all_urls).map Prod.fst).countP (fun k => k == u)
        = ((unique_urls all_urls).map Prod.fst).count u := rfl
    rw [hcount]
    by_cases hmem : u ∈ all_urls.map Prod.fst
    · rw [if_pos hmem]
      exact List.count_eq_one_of_mem (nodup_keys_buildAssoc _)
        ((mem_keys_buildAssoc _ _).mpr hmem)
    · rw [if_neg hmem]
      rw [List.count_eq_zero]
      exact fun hc => hmem ((mem_keys_buildAssoc _ _).mp hc)
  · intro r hr
    rcases List.mem_map.mp hr with ⟨p, hp, rfl⟩
    rcases classifyUrl_status_mem net p with hs | hs | hs
    · refine Or.inr (Or.inr ⟨?_, ?_, ?_⟩) <;> simp [hs]
    · refine Or.inr (Or.inl ⟨?_, ?_, ?_⟩) <;> simp [hs]
    · refine Or.inl ⟨?_, ?_, ?_⟩ <;> simp [hs]

/-! ## The analyzer: exit status and the undefined-function characterization -/

theorem countP_keys_buildAssoc {β : Type} (ps : List (String × β)) (q : String → Bool) :
    ((buildAssoc ps).map Prod.fst).countP q = ((ps.map Prod.fst).dedup).countP q := by
  have hperm : ((buildAssoc ps).map Prod.fst).Perm ((ps.map Prod.fst).dedup) :=
    (List.perm_ext_iff_of_nodup (nodup_keys_buildAssoc ps) (List.nodup_dedup _)).mpr
      (fun a => by rw [mem_keys_buildAssoc, List.mem_dedup])
  exact hperm.countP_eq q

theorem countP_assoc_of_key {β : Type} (ps : List (String × β)) (q : String → Bool) :
    (buildAssoc ps).countP (fun p => q p.1) = ((ps.map Prod.fst).dedup).countP q := by
  have h : (buildAssoc ps).countP (fun p => q p.1)
      = ((buildAssoc ps).map Prod.fst).countP q := by
    rw [List.countP_map]; rfl
  rw [h, countP_keys_buildAssoc]

/-- C2: the analyzer's exit status is the number of distinct undefined
function names plus the number of distinct undefined class names, and it is
zero exactly when there are no findings. -/
theorem exit_status_counts_findings (files : List (String × String)) :
    (analyzer_exit_code files
      = ((allCallPairs files).map Prod.fst).dedup.countP
          (fun n => undefined_function_test (allDefinitions files) n)
        + ((allClassRefPairs files).map Prod.fst).dedup.countP
          (fun n => undefined_class_test (allDefinitions files) n))
    ∧ (analyzer_exit_code files = 0 ↔
        undefined_functions files = [] ∧ undefined_classes files = []) := by
  constructor
  · unfold analyzer_exit_code undefined_functions undefined_classes all_calls all_class_refs
    rw [← List.countP_eq_length_filter, ← List.countP_eq_length_filter,
      countP_assoc_of_key, countP_assoc_of_key]
  · unfold analyzer_exit_code
    constructor
    · intro h
      exact ⟨List.length_eq_zero.mp (by omega), List.length_eq_zero.mp (by omega)⟩
    · rintro ⟨h1, h2⟩
      rw [h1, h2]
      rfl

theorem mem_keys_filter {β : Type} (l : List (String × β)) (q : String → Bool) (u : String) :
    u ∈ (l.filter (fun p => q p.1)).map Prod.fst ↔ u ∈ l.map Prod.fst ∧ q u = true := by
  induction l with
  | nil => simp
  | cons p rest ih =>
    simp only [List.filter_cons, List.map_cons, List.mem_cons]
    by_cases hq : q p.1 = true
    · rw [if_pos hq]
      simp only [List.map_cons, List.mem_cons, ih]
      constructor
      · rintro (rfl | ⟨hm, hqu⟩)
        · exact ⟨Or.inl rfl, hq⟩
        · exact ⟨Or.inr hm, hqu⟩
      · rintro ⟨rfl | hm, hqu⟩
        · exact Or.inl rfl
        · exact Or.inr ⟨hm, hqu⟩
    · rw [if_neg hq, ih]
      constructor
      · rintro ⟨hm, hqu⟩
        exact ⟨Or.inr hm, hqu⟩
      · rintro ⟨rfl | hm, hqu⟩
        · exact absurd hqu hq
        · exact ⟨hm, hqu⟩

theorem undefined_function_test_iff (D : List String) (n : String) :
    undefined_function_test D n = true ↔
      (n ∉ D ∧ n ∉ gas_builtins ∧ ∀ d ∈ D, ¬ startswith n d = true) := by
  simp only [undefined_function_test, is_method, Bool.and_eq_true, Bool.not_eq_true',
    List.any_eq_false, List.elem_eq_mem, List.contains, decide_eq_false_iff_not,
    Bool.not_eq_true]
  tauto

/-- The keys of the `undefined_functions` map are exactly the called names
that fail the three-part test of `main`. -/
theorem mem_undefined_functions_keys_iff (files : List (String × String)) (n : String) :
    n ∈ (undefined_functions files).map Prod.fst ↔
      (n ∈ (allCallPairs files).map Prod.fst
       ∧ n ∉ allDefinitions files ∧ n ∉ gas_builtins
       ∧ ∀ d ∈ allDefinitions files, ¬ startswith n d = true) := by
  unfold undefined_functions all_calls
  rw [mem_keys_filter, mem_keys_buildAssoc, undefined_function_test_iff]

/-- C1 (amended): a called name is reported undefined iff it is not a
project-wide definition, not an allowlisted builtin, and no definition's name
is a prefix of it (the code tests `func_name.startswith(class_name)`, i.e.
the definition is a prefix of the call name — not the reverse direction in
which the specification's aggregator section words the heuristic). -/
theorem undefined_function_report_characterization (files : List (String × String))
    (n : String) :
    n ∈ (undefined_functions files).map Prod.fst ↔
      ((∃ loc, (n, loc) ∈ allCallPairs files)
       ∧ n ∉ allDefinitions files ∧ n ∉ gas_builtins
       ∧ ¬ ∃ d ∈ allDefinitions files, d.data <+: n.data) := by
  rw [mem_undefined_functions_keys_iff]
  have h1 : n ∈ (allCallPairs files).map Prod.fst ↔ ∃ loc, (n, loc) ∈ allCallPairs files := by
    constructor
    · intro hm
      rcases List.mem_map.mp hm with ⟨⟨a, b⟩, hmem, rfl⟩
      exact ⟨b, hmem⟩
    · rintro ⟨loc, hmem⟩
      exact List.mem_map.mpr ⟨(n, loc), hmem, rfl⟩
  have h2 : (∀ d ∈ allDefinitions files, ¬ startswith n d = true) ↔
      ¬ ∃ d ∈ allDefinitions files, d.data <+: n.data := by
    unfold startswith
    constructor
    · rintro hall ⟨d, hd, hp⟩
      exact hall d hd (List.isPrefixOf_iff_prefix.mpr hp)
    · intro hne d hd hp
      exact hne ⟨d, hd, List.isPrefixOf_iff_prefix.mp hp⟩
  rw [h1, h2]

/-- C1 counterexample: with `FooBar` defined and `Foo` called, `Foo` is a
prefix of the defined name `FooBar` (the condition the specification's
aggregator wording would use to suppress the finding), yet the analyzer
reports `Foo` as undefined. -/
theorem undefined_function_prefix_direction_cex :
    "Foo" ∈ (undefined_functions [("a.gs", "function FooBar() { }\nFoo()\n")]).map Prod.fst
    ∧ "FooBar" ∈ allDefinitions [("a.gs", "function FooBar() { }\nFoo()\n")]
    ∧ ("Foo" : String).data <+: ("FooBar" : String).data
    ∧ "Foo" ∉ allDefinitions [("a.gs", "function FooBar() { }\nFoo()\n")]
    ∧ "Foo" ∉ gas_builtins := by
  refine ⟨by decide, by decide, ?_, by decide, by decide⟩
  exact ⟨('B' :: 'a' :: 'r' :: []), rfl⟩

/-- C3: if some definition `c` exists and the called name `n` starts with
`c`, then `n` is not among the undefined-function findings — a single
matching definition suffices. -/
theorem prefix_match_suppresses_finding (files : List (String × String)) (c n : String)
    (hdef : c ∈ allDefinitions files) (hpre : startswith n c = true)
    (hnD : n ∉ allDefinitions files) (hnA : n ∉ gas_builtins) :
    n ∉ (undefined_functions files).map Prod.fst := by
  rw [mem_undefined_functions_keys_iff]
  rintro ⟨-, -, -, hall⟩
  exact hall c hdef hpre

theorem prefix_match_suppresses_finding_witness :
    ("Foo" ∈ allDefinitions [("a.gs", "function Foo() { }\nFooBar()")]
      ∧ startswith "FooBar" "Foo" = true
      ∧ "FooBar" ∉ allDefinitions [("a.gs", "function Foo() { }\nFooBar()")]
      ∧ "FooBar" ∉ gas_builtins)
    ∧ "FooBar" ∉ (undefined_functions [("a.gs", "function Foo() { }\nFooBar()")]).map
        Prod.fst := by
  refine ⟨⟨by decide, by decide, by decide, by decide⟩, ?_⟩
  exact prefix_match_suppresses_finding _ "Foo" "FooBar" (by decide) (by decide) (by decide)
    (by decide)

/-! ## Comment stripping and line numbers (C4, C5) -/

/-- C4: evaluation of the analyzer at the failing input.  In
`/* foo() // */`, the call `foo()` lies inside the block comment (which, in
the analyzed language, runs to the `*/`), but the line-comment pass runs
first and deletes `// */`, leaving an unterminated `/*` that the block pass
then keeps — so `foo` survives stripping, is extracted as a call, and is
reported undefined. -/
theorem comment_stripping_incomplete_eval :
    strip_comments ("/* foo() // */\n").data = ("/* foo() \n").data
    ∧ (extract_function_calls (strip_comments ("/* foo() // */\n").data)).map RawCall.name
        = ["foo"]
    ∧ (undefined_functions [("Code.gs", "/* foo() // */\n")]).map Prod.fst = ["foo"]
    ∧ analyzer_exit_code [("Code.gs", "/* foo() // */\n")] = 1 := by
  exact ⟨by decide, by decide, by decide, by decide⟩

theorem lineOfPos_eq_count (l : List Char) (i : Nat) :
    lineOfPos l i = (l.take i).count '\n' + 1 := by
  induction l generalizing i with
  | nil => cases i <;> simp [lineOfPos]
  | cons c rest ih =>
    cases i with
    | zero => simp [lineOfPos]
    | succ n =>
      by_cases hc : c = '\n' <;>
        simp [lineOfPos, hc, List.count_cons, ih] <;> omega

theorem scanCallsAux_line (content : List Char) (fuel pos : Nat) (l : List Char)
    (r : RawCall) (hr : r ∈ scanCallsAux content fuel pos l) :
    r.line = (content.take r.start).count '\n' + 1 := by
  induction fuel generalizing pos l with
  | zero => simp [scanCallsAux] at hr
  | succ fuel ih =>
    cases l with
    | nil => simp [scanCallsAux] at hr
    | cons c rest =>
      rw [scanCallsAux] at hr
      cases hm : matchCall (c :: rest) with
      | none => rw [hm] at hr; exact ih _ _ hr
      | some wa =>
        rw [hm] at hr
        rcases List.mem_cons.mp hr with rfl | hr2
        · rfl
        · exact ih _ _ hr2

/-- C5 (amended): every extracted call site's recorded line number is the
1-based line number of the match offset in the text the extractor ran on —
which in the analyzer pipeline is the comment-stripped content, not the
original file. -/
theorem recorded_line_matches_scanned_text (content : List Char) (r : RawCall)
    (hr : r ∈ extract_function_calls content) :
    r.line = lineOfPos content r.start := by
  rw [lineOfPos_eq_count]
  exact scanCallsAux_line content content.length 0 content r
    (List.mem_of_mem_filter hr)

theorem recorded_line_matches_scanned_text_witness :
    (({ name := "foo", start := 1, line := 2 } : RawCall)
        ∈ extract_function_calls ("\nfoo()").data)
    ∧ ({ name := "foo", start := 1, line := 2 } : RawCall).line
        = lineOfPos ("\nfoo()").data 1 := by
  refine ⟨by decide, ?_⟩
  exact recorded_line_matches_scanned_text ("\nfoo()").data _ (by decide)

/-- C5 counterexample: with a multi-line block comment before the call, the
recorded line number (computed on the comment-stripped text) differs from the
1-based line of the occurrence in the originating file: `foo()` is on line 3
of `/*\n*/\nfoo()` but is reported on line 2. -/
theorem recorded_line_original_file_cex :
    undefined_functions [("a.gs", "/*\n*/\nfoo()")]
      = [("foo", [{ file := "a.gs", line := 2 }])]
    ∧ (("/*\n*/\nfoo()" : String).data.drop 6).take 5 = ("foo()").data
    ∧ lineOfPos ("/*\n*/\nfoo()").data 6 = 3 := by
  exact ⟨by decide, by decide, by decide⟩

/-! ## Determinism of the report (C6) -/

/-- C6 (amended): for a fixed input file list, everything in the report and
the exit status is a function of the input except the `all_definitions`
array, which enumerates a Python `set` in an unspecified order: any two runs
agree on the summary, both finding maps and the exit status, and their
`all_definitions` arrays are permutations of each other. -/
theorem analyzer_deterministic_up_to_defs_order (files : List (String × String))
    (e1 e2 : List String) (h1 : enumeratesDefinitions files e1)
    (h2 : enumeratesDefinitions files e2) :
    (buildReport files e1).summary = (buildReport files e2).summary
    ∧ (buildReport files e1).undefined_functions = (buildReport files e2).undefined_functions
    ∧ (buildReport files e1).undefined_classes = (buildReport files e2).undefined_classes
    ∧ (buildReport files e1).all_definitions.Perm
        ((buildReport files e2).all_definitions) := by
  exact ⟨rfl, rfl, rfl, h1.trans h2.symm⟩

theorem analyzer_deterministic_up_to_defs_order_witness :
    (enumeratesDefinitions [("a.gs", "function foo() { }\nfunction bar() { }")]
        ["foo", "bar"]
      ∧ enumeratesDefinitions [("a.gs", "function foo() { }\nfunction bar() { }")]
        ["bar", "foo"])
    ∧ (buildReport [("a.gs", "function foo() { }\nfunction bar() { }")]
        ["foo", "bar"]).all_definitions.Perm
      ((buildReport [("a.gs", "function foo() { }\nfunction bar() { }")]
        ["bar", "foo"]).all_definitions) := by
  have hset : definitionsSet [("a.gs", "function foo() { }\nfunction bar() { }")]
      = ["foo", "bar"] := by decide
  have hp1 : enumeratesDefinitions [("a.gs", "function foo() { }\nfunction bar() { }")]
      ["foo", "bar"] := by
    unfold enumeratesDefinitions; rw [hset]
  have hp2 : enumeratesDefinitions [("a.gs", "function foo() { }\nfunction bar() { }")]
      ["bar", "foo"] := by
    unfold enumeratesDefinitions; rw [hset]; exact List.Perm.swap "foo" "bar" []
  exact ⟨⟨hp1, hp2⟩,
    (analyzer_deterministic_up_to_defs_order _ _ _ hp1 hp2).2.2.2⟩

/-- C6 counterexample: two runs on the same unchanged input, each with a
legitimate enumeration of the definitions set, produce different reports (the
`all_definitions` array is reordered), while the exit status is the same —
so the reports are not byte-identical up to map key ordering. -/
theorem report_defs_order_cex :
    enumeratesDefinitions [("a.gs", "function foo() { }\nfunction bar() { }")]
      ["foo", "bar"]
    ∧ enumeratesDefinitions [("a.gs", "function foo() { }\nfunction bar() { }")]
      ["bar", "foo"]
    ∧ buildReport [("a.gs", "function foo() { }\nfunction bar() { }")] ["foo", "bar"]
        ≠ buildReport [("a.gs", "function foo() { }\nfunction bar() { }")] ["bar", "foo"]
    ∧ analyzer_exit_code [("a.gs", "function foo() { }\nfunction bar() { }")] = 0 := by
  have hset : definitionsSet [("a.gs", "function foo() { }\nfunction bar() { }")]
      = ["foo", "bar"] := by decide
  refine ⟨?_, ?_, ?_, by decide⟩
  · unfold enumeratesDefinitions; rw [hset]
  · unfold enumeratesDefinitions; rw [hset]; exact List.Perm.swap "foo" "bar" []
  · intro h
    have := congrArg Report.all_definitions h
    simp [buildReport] at this

/-! ## Keywords entering the definitions set (C10)

The claim concerns `kw (...) {` headers being picked up by pattern 2.  The
non-overlapping scan makes the raw universal statement false (an earlier
pattern-2 match can swallow the header); the lemmas below establish the
amended statement: if no `(` occurs before the header and the header is not
immediately preceded by an identifier character, the scan captures exactly
the keyword. -/

theorem space_not_word {c : Char} (h : isSpaceChar c = true) : isWordChar c = false := by
  cases hw : isWordChar c
  · rfl
  · exact absurd h (by rw [word_not_space hw]; simp)

theorem takeWhile_word_space_paren (ws1 X : List Char)
    (hws1 : ∀ c ∈ ws1, isSpaceChar c = true) :
    (ws1 ++ '(' :: X).takeWhile isWordChar = [] := by
  cases ws1 with
  | nil => simp [List.takeWhile_cons, isWordChar]
  | cons c rest =>
    have hc : isWordChar c = false := space_not_word (hws1 c (by simp))
    simp [List.takeWhile_cons, hc]

theorem dropWhile_word_space_paren (ws1 X : List Char)
    (hws1 : ∀ c ∈ ws1, isSpaceChar c = true) :
    (ws1 ++ '(' :: X).dropWhile isWordChar = ws1 ++ '(' :: X := by
  cases ws1 with
  | nil => simp [List.dropWhile_cons, isWordChar]
  | cons c rest =>
    have hc : isWordChar c = false := space_not_word (hws1 c (by simp))
    simp [List.dropWhile_cons, hc]

theorem append_eq_append_of_not_mem {x y x2 y2 : List Char} {a : Char}
    (h : x ++ a :: y = x2 ++ a :: y2) (hx : a ∉ x) (hx2 : a ∉ x2) : x = x2 ∧ y = y2 := by
  induction x generalizing x2 with
  | nil =>
    cases x2 with
    | nil => simpa using h
    | cons b xs =>
      simp only [List.nil_append, List.cons_append, List.cons.injEq] at h
      exact absurd (by rw [h.1]; exact List.mem_cons_self _ _) hx2
  | cons b xs ih =>
    cases x2 with
    | nil =>
      simp only [List.nil_append, List.cons_append, List.cons.injEq] at h
      exact absurd (by rw [← h.1]; exact List.mem_cons_self _ _) hx
    | cons b2 xs2 =>
      simp only [List.cons_append, List.cons.injEq] at h
      obtain ⟨rfl, h2⟩ := h
      have hx' : a ∉ xs := fun hm => hx (List.mem_cons_of_mem _ hm)
      have hx2' : a ∉ xs2 := fun hm => hx2 (List.mem_cons_of_mem _ hm)
      obtain ⟨rfl, rfl⟩ := ih h2 hx' hx2'
      exact ⟨rfl, rfl⟩

theorem matchCore_some_inv {l w r : List Char} (h : matchCore l = some (w, r)) :
    w = l.takeWhile isWordChar ∧ l.takeWhile isWordChar ≠ [] ∧
      ∃ l3, (l.dropWhile isWordChar).dropWhile isSpaceChar = '(' :: l3 := by
  simp only [matchCore] at h
  split at h
  · exact absurd h (by simp)
  · rename_i hne
    split at h
    · rename_i l3 hchain
      split at h
      · split at h
        · rename_i l4 hchain2 l5 hchain3
          obtain ⟨rfl, rfl⟩ : l.takeWhile isWordChar = w ∧ l5 = r := by
            simpa using h
          exact ⟨rfl, by simpa [List.isEmpty_iff] using hne, l3, hchain⟩
        · exact absurd h (by simp)
      · exact absurd h (by simp)
    · exact absurd h (by simp)

/-- Any successful pattern-2 core match on a text consisting of anything
without `(` and not ending in an identifier character, followed by a word
`kw`, spaces, and `(`, captures exactly `kw`. -/
theorem matchCore_capture {mid kw ws1 rest0 w r : List Char}
    (hmid_par : '(' ∉ mid)
    (hmid_last : ∀ m, mid.getLast? = some m → isWordChar m = false)
    (hkw : kw ≠ []) (hkww : ∀ c ∈ kw, isWordChar c = true)
    (hws1 : ∀ c ∈ ws1, isSpaceChar c = true)
    (h : matchCore (mid ++ (kw ++ (ws1 ++ '(' :: rest0))) = some (w, r)) :
    w = kw := by
  obtain ⟨hw_eq, hw_ne, l3, hchain⟩ := matchCore_some_inv h
  set l := mid ++ (kw ++ (ws1 ++ '(' :: rest0)) with hl
  set W := l.takeWhile isWordChar with hW
  set SP := (l.dropWhile isWordChar).takeWhile isSpaceChar with hSP
  have hw_all : ∀ c ∈ W, isWordChar c = true := fun c hc => List.mem_takeWhile_imp hc
  have hsp_all : ∀ c ∈ SP, isSpaceChar c = true := fun c hc => List.mem_takeWhile_imp hc
  have hL1 : (W ++ SP) ++ '(' :: l3 = l := by
    rw [List.append_assoc, ← hchain, hSP, List.takeWhile_append_dropWhile, hW,
      List.takeWhile_append_dropWhile]
  have hL2 : (mid ++ (kw ++ ws1)) ++ '(' :: rest0 = l := by
    rw [hl]; simp [List.append_assoc]
  have hnot1 : '(' ∉ W ++ SP := by
    intro hm
    rcases List.mem_append.mp hm with hm | hm
    · exact word_not_lparen (hw_all _ hm) rfl
    · exact space_not_lparen (hsp_all _ hm) rfl
  have hnot2 : '(' ∉ mid ++ (kw ++ ws1) := by
    intro hm
    rcases List.mem_append.mp hm with hm | hm
    · exact hmid_par hm
    rcases List.mem_append.mp hm with hm | hm
    · exact word_not_lparen (hkww _ hm) rfl
    · exact space_not_lparen (hws1 _ hm) rfl
  obtain ⟨hE, -⟩ := append_eq_append_of_not_mem (hL1.trans hL2.symm) hnot1 hnot2
  rcases List.append_eq_append_iff.mp hE with ⟨t, hmid', hsp'⟩ | ⟨u, hw', hkws'⟩
  · obtain ⟨k, kw', rfl⟩ : ∃ k kw', kw = k :: kw' := by
      cases kw with
      | nil => exact absurd rfl hkw
      | cons k kw' => exact ⟨k, kw', rfl⟩
    have hkmem : k ∈ SP := by rw [hsp']; simp
    have h1 := hsp_all k hkmem
    have h2 := hkww k (by simp)
    rw [word_not_space h2] at h1
    exact absurd h1 (by simp)
  · cases mid with
    | nil =>
      simp only [List.nil_append] at hw' hkws'
      rcases List.append_eq_append_iff.mp hkws' with ⟨t, hWt, hws1t⟩ | ⟨t, hkwt, hspt⟩
      · cases t with
        | nil => rw [hw_eq, hw', hWt]; simp
        | cons c t' =>
          have hc1 : isWordChar c = true := hw_all c (by rw [hw', hWt]; simp)
          have hc2 : isSpaceChar c = true := hws1 c (by rw [hws1t]; simp)
          rw [word_not_space hc1] at hc2
          exact absurd hc2 (by simp)
      · cases t with
        | nil => rw [hw_eq, hw', hkwt]; simp
        | cons c t' =>
          have hc1 : isWordChar c = true := hkww c (by rw [hkwt]; simp)
          have hc2 : isSpaceChar c = true := hsp_all c (by rw [hspt]; simp)
          rw [word_not_space hc1] at hc2
          exact absurd hc2 (by simp)
    | cons m0 mid' =>
      have hne : (m0 :: mid') ≠ [] := by simp
      have hlast_mem : (m0 :: mid').getLast hne ∈ (m0 :: mid') := List.getLast_mem hne
      have hlast_false := hmid_last _ (List.getLast?_eq_getLast _ hne)
      have hmemW : (m0 :: mid').getLast hne ∈ W := by
        rw [hw']; exact List.mem_append_left _ hlast_mem
      have := hw_all _ hmemW
      rw [hlast_false] at this
      exact absurd this (by simp)

/-- Pattern 2's core matches a well-formed header at its start and captures
the leading word. -/
theorem matchCore_header {kw ws1 inner ws2 post : List Char}
    (hkw : kw ≠ []) (hkww : ∀ c ∈ kw, isWordChar c = true)
    (hws1 : ∀ c ∈ ws1, isSpaceChar c = true)
    (hin : ')' ∉ inner) (hws2 : ∀ c ∈ ws2, isSpaceChar c = true) :
    matchCore (kw ++ (ws1 ++ '(' :: (inner ++ ')' :: (ws2 ++ '{' :: post))))
      = some (kw, post) := by
  have h1 : (kw ++ (ws1 ++ '(' :: (inner ++ ')' :: (ws2 ++ '{' :: post)))).takeWhile
      isWordChar = kw := by
    rw [List.takeWhile_append_of_pos hkww, takeWhile_word_space_paren _ _ hws1,
      List.append_nil]
  have h2 : (kw ++ (ws1 ++ '(' :: (inner ++ ')' :: (ws2 ++ '{' :: post)))).dropWhile
      isWordChar = ws1 ++ '(' :: (inner ++ ')' :: (ws2 ++ '{' :: post)) := by
    rw [List.dropWhile_append_of_pos hkww, dropWhile_word_space_paren _ _ hws1]
  have h3 : (ws1 ++ '(' :: (inner ++ ')' :: (ws2 ++ '{' :: post))).dropWhile
      isSpaceChar = '(' :: (inner ++ ')' :: (ws2 ++ '{' :: post)) := by
    rw [List.dropWhile_append_of_pos hws1]
    simp [List.dropWhile_cons, isSpaceChar]
  have h4 : (inner ++ ')' :: (ws2 ++ '{' :: post)).dropWhile (fun c => !(c = ')'))
      = ')' :: (ws2 ++ '{' :: post) := by
    have hall : ∀ c ∈ inner, (!(c = ')' : Bool)) = true := by
      intro c hc
      have : ¬ c = ')' := fun he => hin (he ▸ hc)
      simpa using this
    rw [List.dropWhile_append_of_pos hall]
    simp [List.dropWhile_cons]
  have h5 : (ws2 ++ '{' :: post).dropWhile isSpaceChar = '{' :: post := by
    rw [List.dropWhile_append_of_pos hws2]
    simp [List.dropWhile_cons, isSpaceChar]
  simp only [matchCore, h1, h2, h3, h4, h5]
  simp [List.isEmpty_iff, hkw]

/-- For the control-flow keywords, the `static` option of pattern 2 cannot
fire at the header itself. -/
theorem matchStaticPre_header_none (kw : String) (h : kw ∈ control_keywords)
    (X : List Char) : matchStaticPre (kw.data ++ X) = none := by
  fin_cases h <;> rfl

theorem control_keyword_data (kw : String) (h : kw ∈ control_keywords) :
    kw.data ≠ [] ∧ ∀ c ∈ kw.data, isWordChar c = true := by
  fin_cases h <;> exact ⟨by decide, by decide⟩

theorem matchStaticPre_some {l w r : List Char} (h : matchStaticPre l = some (w, r)) :
    ∃ c rest, l = ("static" : String).data ++ c :: rest ∧ isSpaceChar c = true
      ∧ matchCore (rest.dropWhile isSpaceChar) = some (w, r) := by
  unfold matchStaticPre at h
  split at h
  · rename_i hpre
    obtain ⟨t, ht⟩ : ∃ t, ("static" : String).data ++ t = l :=
      List.isPrefixOf_iff_prefix.mp hpre
    have hlen : ("static" : String).data.length = 6 := rfl
    have hdrop : l.drop 6 = t := by rw [← ht, ← hlen]; exact List.drop_left _ _
    rw [hdrop] at h
    cases t with
    | nil => exact absurd h (by simp)
    | cons c rest =>
      have h2 : (if isSpaceChar c = true then matchCore (rest.dropWhile isSpaceChar)
          else none) = some (w, r) := h
      by_cases hc : isSpaceChar c = true
      · rw [if_pos hc] at h2
        exact ⟨c, rest, ht.symm, hc, h2⟩
      · rw [if_neg hc] at h2
        exact absurd h2 (by simp)
  · exact absurd h (by simp)

/-- Pattern 2 matches a well-formed keyword header at its start, capturing
the keyword. -/
theorem matchP2_header (kw : String) (hkwmem : kw ∈ control_keywords)
    {ws1 inner ws2 post : List Char}
    (hws1 : ∀ c ∈ ws1, isSpaceChar c = true)
    (hin : ')' ∉ inner) (hws2 : ∀ c ∈ ws2, isSpaceChar c = true) :
    matchP2 (kw.data ++ (ws1 ++ '(' :: (inner ++ ')' :: (ws2 ++ '{' :: post))))
      = some (kw.data, post) := by
  obtain ⟨hkw, hkww⟩ := control_keyword_data kw hkwmem
  unfold matchP2
  rw [matchStaticPre_header_none kw hkwmem]
  exact matchCore_header hkw hkww hws1 hin hws2

/-- The suffix after the last position a `dropWhile` keeps matches the
original list's last entry. -/
theorem getLast_eq_of_dropWhile_ne_nil {p : Char → Bool} {l : List Char}
    (h : l.dropWhile p ≠ []) : (l.dropWhile p).getLast? = l.getLast? := by
  obtain ⟨s, hs⟩ : ∃ s, s ++ l.dropWhile p = l := List.dropWhile_suffix p
  conv_rhs => rw [← hs]
  rw [List.getLast?_append_of_ne_nil s h]

/-- Any successful pattern-2 match (including via its `static` option) on
text made of a `(`-free part not ending in an identifier character followed
by a keyword header captures exactly the keyword. -/
theorem matchP2_capture (mid : List Char) (kw : String)
    (ws1 inner ws2 post w r : List Char)
    (hkwmem : kw ∈ control_keywords)
    (hmid_par : '(' ∉ mid)
    (hmid_last : ∀ m, mid.getLast? = some m → isWordChar m = false)
    (hws1 : ∀ c ∈ ws1, isSpaceChar c = true)
    (hin : ')' ∉ inner) (hws2 : ∀ c ∈ ws2, isSpaceChar c = true)
    (h : matchP2
        (mid ++ (kw.data ++ (ws1 ++ '(' :: (inner ++ ')' :: (ws2 ++ '{' :: post)))))
        = some (w, r)) :
    w = kw.data := by
  obtain ⟨hkw, hkww⟩ := control_keyword_data kw hkwmem
  have hHdrop : (kw.data ++ (ws1 ++ '(' :: (inner ++ ')' :: (ws2 ++ '{' :: post)))).dropWhile
      isSpaceChar = kw.data ++ (ws1 ++ '(' :: (inner ++ ')' :: (ws2 ++ '{' :: post))) := by
    obtain ⟨k, ktl, hk⟩ : ∃ k ktl, kw.data = k :: ktl := by
      cases hkd : kw.data with
      | nil => exact absurd hkd hkw
      | cons k ktl => exact ⟨k, ktl, rfl⟩
    have hkword : isWordChar k = true := hkww k (by rw [hk]; simp)
    have hksp : isSpaceChar k = false := word_not_space hkword
    rw [hk, List.cons_append, List.dropWhile_cons, hksp]
    simp
  unfold matchP2 at h
  cases hsp : matchStaticPre
      (mid ++ (kw.data ++ (ws1 ++ '(' :: (inner ++ ')' :: (ws2 ++ '{' :: post))))) with
  | none =>
    rw [hsp] at h
    exact matchCore_capture hmid_par hmid_last hkw hkww hws1 h
  | some pr =>
    rw [hsp] at h
    have hpr : pr = (w, r) := Option.some.inj h
    rw [hpr] at hsp
    obtain ⟨c, rest, hleq, hc, hcore⟩ := matchStaticPre_some hsp
    have hleq2 : mid ++ (kw.data ++ (ws1 ++ '(' :: (inner ++ ')' :: (ws2 ++ '{' :: post))))
        = (("static" : String).data ++ [c]) ++ rest := by
      rw [hleq, List.append_cons]
    rcases List.append_eq_append_iff.mp hleq2 with ⟨t, hSc, hT⟩ | ⟨u, hmid2, hrest⟩
    · rcases List.eq_nil_or_concat t with rfl | ⟨t', e, rfl⟩
      · have hrest_eq : rest = kw.data ++ (ws1 ++ '(' :: (inner ++ ')' :: (ws2 ++ '{' :: post))) := by
          simpa using hT.symm
        rw [hrest_eq, hHdrop] at hcore
        have h2 := hcore.symm.trans (matchCore_header hkw hkww hws1 hin hws2)
        exact congrArg Prod.fst (Option.some.inj h2)
      · rw [List.concat_eq_append, ← List.append_assoc] at hSc
        obtain ⟨hS, -⟩ := List.append_inj' hSc.symm rfl
        cases mid with
        | nil =>
          rw [List.nil_append] at hsp
          rw [matchStaticPre_header_none kw hkwmem] at hsp
          exact absurd hsp (by simp)
        | cons m0 mid' =>
          have hne : (m0 :: mid') ≠ [] := by simp
          have hlast_mem := List.getLast_mem hne
          have hlast_false := hmid_last _ (List.getLast?_eq_getLast _ hne)
          have hmemS : (m0 :: mid').getLast hne ∈ ("static" : String).data := by
            rw [← hS]; exact List.mem_append_left _ hlast_mem
          have hword : isWordChar ((m0 :: mid').getLast hne) = true := by
            have hall : ∀ ch ∈ ("static" : String).data, isWordChar ch = true := by decide
            exact hall _ hmemS
          rw [hlast_false] at hword
          exact absurd hword (by simp)
    · rw [hrest, List.dropWhile_append] at hcore
      by_cases hu : ((u.dropWhile isSpaceChar).isEmpty) = true
      · rw [if_pos hu, hHdrop] at hcore
        have h2 := hcore.symm.trans (matchCore_header hkw hkww hws1 hin hws2)
        exact congrArg Prod.fst (Option.some.inj h2)
      · rw [if_neg hu] at hcore
        have hu_ne : u.dropWhile isSpaceChar ≠ [] := by
          intro he; exact hu (by rw [he]; rfl)
        refine matchCore_capture ?par ?last hkw hkww hws1 hcore
        case par =>
          intro hm
          have hmu : '(' ∈ u := (List.dropWhile_sublist _).subset hm
          exact hmid_par (by rw [hmid2]; exact List.mem_append_right _ hmu)
        case last =>
          intro m hm
          have hgl : (u.dropWhile isSpaceChar).getLast? = u.getLast? :=
            getLast_eq_of_dropWhile_ne_nil hu_ne
          have hu_ne2 : u ≠ [] := by
            intro he; rw [he] at hu_ne; simp [List.dropWhile] at hu_ne
          have hmidlast : mid.getLast? = u.getLast? := by
            rw [hmid2]; exact List.getLast?_append_of_ne_nil _ hu_ne2
          exact hmid_last m (by rw [hmidlast, ← hgl]; exact hm)

/-- The non-overlapping pattern-2 scan emits the keyword of a well-formed
header when no `(` precedes it and it is not glued to a preceding
identifier: every earlier successful match would itself capture the keyword,
and at the header the match succeeds. -/
theorem scanNames_matchP2_keyword (kw : String) (hkwmem : kw ∈ control_keywords)
    (ws1 inner ws2 post : List Char)
    (hws1 : ∀ c ∈ ws1, isSpaceChar c = true)
    (hin : ')' ∉ inner) (hws2 : ∀ c ∈ ws2, isSpaceChar c = true)
    (pre : List Char) (fuel : Nat)
    (hpre_par : '(' ∉ pre)
    (hpre_last : ∀ m, pre.getLast? = some m → isWordChar m = false)
    (hlen : (pre ++ (kw.data ++ (ws1 ++ '(' :: (inner ++ ')' :: (ws2 ++ '{' :: post))))).length
      ≤ fuel) :
    kw ∈ scanNames matchP2 fuel
      (pre ++ (kw.data ++ (ws1 ++ '(' :: (inner ++ ')' :: (ws2 ++ '{' :: post))))) := by
  induction pre generalizing fuel with
  | nil =>
    obtain ⟨k, ktl, hk⟩ : ∃ k ktl, kw.data = k :: ktl := by
      obtain ⟨hkw, -⟩ := control_keyword_data kw hkwmem
      cases hkd : kw.data with
      | nil => exact absurd hkd hkw
      | cons k ktl => exact ⟨k, ktl, rfl⟩
    cases fuel with
    | zero =>
      rw [List.nil_append, hk] at hlen
      simp at hlen
    | succ f =>
      simp only [List.nil_append]
      rw [hk, List.cons_append, scanNames, ← List.cons_append, ← hk,
        matchP2_header kw hkwmem hws1 hin hws2]
      exact List.mem_cons_self _ _
  | cons c pre' ih =>
    cases fuel with
    | zero => simp at hlen
    | succ f =>
      rw [List.cons_append, scanNames]
      cases hm : matchP2 (c :: (pre' ++ (kw.data ++ (ws1 ++ '(' ::
          (inner ++ ')' :: (ws2 ++ '{' :: post)))))) with
      | some wr =>
        obtain ⟨w, r⟩ := wr
        have hw : w = kw.data := by
          refine matchP2_capture (c :: pre') kw ws1 inner ws2 post w r hkwmem hpre_par
            hpre_last hws1 hin hws2 ?_
          rw [List.cons_append]
          exact hm
        rw [hw]
        exact List.mem_cons_self _ _
      | none =>
        refine ih f ?_ ?_ ?_
        · exact fun hmem => hpre_par (List.mem_cons_of_mem _ hmem)
        · intro m hmm
          cases pre' with
          | nil => simp at hmm
          | cons p ps =>
            exact hpre_last m (by rw [List.getLast?_cons_cons]; exact hmm)
        · rw [List.cons_append, List.length_cons] at hlen
          omega

/-- C10 (amended): if the comment-stripped text contains a control-flow
header `kw (...) {` that is not preceded anywhere by a `(` and is not glued
to a preceding identifier character, then the definition extractor includes
`kw` in the returned definitions (the keyword denylist applies only to call
extraction).  The two side conditions are forced by the non-overlapping scan
of `findall`: an earlier pattern-2 match (which needs an earlier `(`) can
consume the header, and a word character glued to `kw` changes the captured
name. -/
theorem keyword_header_in_definitions (kw : String) (pre ws1 inner ws2 post : List Char)
    (hkwmem : kw ∈ control_keywords)
    (hpre_par : '(' ∉ pre)
    (hpre_last : ∀ m, pre.getLast? = some m → isWordChar m = false)
    (hws1 : ∀ c ∈ ws1, isSpaceChar c = true)
    (hin : ')' ∉ inner)
    (hws2 : ∀ c ∈ ws2, isSpaceChar c = true) :
    kw ∈ extract_function_definitions
      (pre ++ (kw.data ++ (ws1 ++ '(' :: (inner ++ ')' :: (ws2 ++ '{' :: post))))) := by
  unfold extract_function_definitions
  have h := scanNames_matchP2_keyword kw hkwmem ws1 inner ws2 post hws1 hin hws2 pre _
    hpre_par hpre_last (le_refl _)
  simp only [List.mem_append]
  exact Or.inl (Or.inl (Or.inr h))

theorem keyword_header_in_definitions_witness :
    ("if" ∈ control_keywords
      ∧ '(' ∉ ("x;\n" : String).data
      ∧ ("x;\n" : String).data.getLast? = some '\n'
      ∧ isWordChar '\n' = false)
    ∧ "if" ∈ extract_function_definitions
        (("x;\n" : String).data ++ (("if" : String).data
          ++ ([' '] ++ '(' :: (['x'] ++ ')' :: ([] ++ '{' :: []))))) := by
  refine ⟨⟨by decide, by decide, by decide, by decide⟩, ?_⟩
  refine keyword_header_in_definitions "if" _ _ _ _ _ (by decide) (by decide) ?_
    (by decide) (by decide) (by decide)
  intro m hm
  have h2 : ("x;\n" : String).data.getLast? = some '\n' := by decide
  rw [h2] at hm
  rw [(Option.some.inj hm).symm]
  decide

/-- C10 counterexample: the text `f ( if (x) {` contains the control-flow
header `if (x) {` after comment stripping (it has no comments), yet `if` is
not among the extracted definitions: the non-overlapping scan's first
pattern-2 match starts at `f`, its `[^)]*` part swallows `if (x`, and the
header is consumed. -/
theorem keyword_header_overlap_cex :
    ("f ( if (x) \x7b" : String).data
      = ("f ( " : String).data ++ (("if" : String).data
        ++ ((" " : String).data ++ '(' :: (("x" : String).data ++ ')' ::
          ((" " : String).data ++ '{' :: []))))
    ∧ "if" ∈ control_keywords
    ∧ extract_function_definitions ("f ( if (x) \x7b" : String).data = ["f"]
    ∧ "if" ∉ extract_function_definitions ("f ( if (x) \x7b" : String).data := by
  exact ⟨by decide, by decide, by decide, by decide⟩
